import Mathlib

/-!
Verification of the path-scoped configuration engine
(`pr_agent/path_config/`: `config_discovery.py`, `config_merger.py`,
`config_resolver.py`).

Modelling conventions:
- Filesystem paths are lists of path components, relative to the resolved
  repository root (the root itself is `[]`).  `pathlib` joins and
  `Path.relative_to` are purely lexical (component-wise); a `".."`
  component is an ordinary component for them, so it is kept literally in
  the lists.  What the operating system sees when a path is opened is the
  resolved location, computed by `resolvePath` below.
- The filesystem is a predicate `FS` telling which resolved locations are
  regular files.
- Python strings are Lean `String`s; `str.lower`, `str.startswith` and
  `str.split` are modelled by `strLower`, `strStartsWith` and `splitDots`,
  which operate on the character lists (ASCII data, as in the settings
  paths involved).
- TOML documents (`tomllib.load` results) are modelled by the mutual
  inductive `TomlVal`/`TomlList`/`TomlTable`; a table is an ordered
  association list, mirroring Python dict insertion order: assignment to a
  present key keeps its position, assignment to an absent key appends.
- Logging calls have no observable effect and are dropped.  The
  discovery/resolution caches are modelled as always empty (every call
  recomputes); the behaviour modelled is the uncached one.
-/

namespace PathCfg

/-- Lowercase a string character by character, modelling Python `str.lower`
for the ASCII setting names used by the engine. -/
def strLower (s : String) : String := ⟨s.data.map Char.toLower⟩

/-- Boolean string-prefix test, modelling Python `str.startswith`. -/
def strStartsWith (s pre : String) : Bool := pre.data.isPrefixOf s.data

/-- Accumulator-based splitting of a character list at the dot character. -/
def splitDotsAux : List Char → List Char → List String
  | [], acc => [⟨acc.reverse⟩]
  | c :: cs, acc =>
    if c = '.' then ⟨acc.reverse⟩ :: splitDotsAux cs [] else splitDotsAux cs (c :: acc)

/-- Split a string at dots, modelling Python `"x.y".split(".")` (empty
pieces are preserved, and the empty string yields one empty piece). -/
def splitDots (s : String) : List String := splitDotsAux s.data []

mutual
/-- A parsed TOML value: scalar (string / integer / boolean), array, or
table.  Scalar kinds not exercised by this subsystem (floats, dates) are
not needed by any claim and are omitted. -/
inductive TomlVal where
  | str : String → TomlVal
  | int : Int → TomlVal
  | bool : Bool → TomlVal
  | list : TomlList → TomlVal
  | table : TomlTable → TomlVal
  deriving DecidableEq

/-- A TOML array, as a bespoke list so that structural recursion through
the mutual family stays kernel-computable. -/
inductive TomlList where
  | nil : TomlList
  | cons : TomlVal → TomlList → TomlList
  deriving DecidableEq

/-- A TOML table: an ordered association list of key/value pairs,
mirroring Python dict insertion order. -/
inductive TomlTable where
  | nil : TomlTable
  | cons : String → TomlVal → TomlTable → TomlTable
  deriving DecidableEq
end

/-- Dictionary lookup: `d.get(key)` / `d[key]` on a Python dict. -/
def tableLookup : TomlTable → String → Option TomlVal
  | .nil, _ => none
  | .cons k v rest, key => if k = key then some v else tableLookup rest key

/-- Dictionary assignment `d[key] = v`: a present key keeps its position,
an absent key is appended, as in Python dicts. -/
def tableSet : TomlTable → String → TomlVal → TomlTable
  | .nil, k, v => .cons k v .nil
  | .cons k' v' rest, k, v =>
    if k' = k then .cons k' v rest else .cons k' v' (tableSet rest k v)

/-- Concatenation of two TOML arrays (`list + list` in Python). -/
def tomlAppend : TomlList → TomlList → TomlList
  | .nil, l => l
  | .cons x xs, l => .cons x (tomlAppend xs l)

/-- Python truthiness of a parsed TOML value (used by the
`if strategy_value:` guard in `_get_merge_strategy`). -/
def truthy : TomlVal → Bool
  | .str s => !(s = "")
  | .int n => !(n = 0)
  | .bool b => b
  | .list .nil => false
  | .list _ => true
  | .table .nil => false
  | .table _ => true

mutual
/-- Whether a key occurs anywhere in a TOML table, at any nesting depth
(inside nested tables and inside tables nested in arrays). -/
def tableHasKeyDeep (key : String) : TomlTable → Bool
  | .nil => false
  | .cons k v rest => (k = key : Bool) || valHasKeyDeep key v || tableHasKeyDeep key rest

/-- Whether a key occurs anywhere inside a TOML value. -/
def valHasKeyDeep (key : String) : TomlVal → Bool
  | .table t => tableHasKeyDeep key t
  | .list l => listHasKeyDeep key l
  | _ => false

/-- Whether a key occurs anywhere inside a TOML array. -/
def listHasKeyDeep (key : String) : TomlList → Bool
  | .nil => false
  | .cons v rest => valHasKeyDeep key v || listHasKeyDeep key rest
end

/-- The dynamic-include / dynamic-loading directive keys the structural
security scan forbids.  `dynaconf_include` is the directive exercised by
`test_security_validation`; `dynaconf_merge` is the companion
dynamic-merge directive of the same configuration library. -/
def dangerousDirectiveKeys : List String := ["dynaconf_include", "dynaconf_merge"]

/-- Modelled from the spec: `validate_file_security`
(`pr_agent.custom_merge_loader`) is not among the sources; per the spec it
is a structural security scan over the parsed document, forbidding
dangerous dynamic-include/dynamic-loading directives anywhere in the tree,
unconditional regardless of depth.  Returns `true` when the document
violates the policy (the Python function raises `SecurityError` then). -/
def validate_file_security (data : TomlTable) : Bool :=
  dangerousDirectiveKeys.any fun k => tableHasKeyDeep k data

/-- Merge strategies (`MergeStrategy` enum in `config_merger.py`). -/
inductive MergeStrategy where
  | override : MergeStrategy
  | extend : MergeStrategy
  | inherit : MergeStrategy
  deriving DecidableEq

/-- The `MergeStrategy(strategy_value)` enum constructor: succeeds exactly
on the strings `"override"`, `"extend"`, `"inherit"`; any other value
raises `ValueError` (modelled as `none`, which the caller turns into the
default with a logged warning). -/
def parseMergeStrategy : TomlVal → Option MergeStrategy
  | .str s =>
    if s = "override" then some .override
    else if s = "extend" then some .extend
    else if s = "inherit" then some .inherit
    else none
  | _ => none

/-- `ConfigMerger._get_merge_strategy`.  The source receives the section
dict and the key and reads `config_section[key]`; during `_merge_dict`'s
loop that is exactly the overlay value being merged, which is what is
passed here.  Root configs always use `EXTEND`; otherwise a truthy
`_merge_strategy` directive inside a dict value selects the strategy,
with unrecognized values degrading to the `OVERRIDE` default. -/
def get_merge_strategy (value : TomlVal) (isRoot : Bool) : MergeStrategy :=
  if isRoot then .extend
  else
    match value with
    | .table t =>
      match tableLookup t "_merge_strategy" with
      | some sv => if truthy sv then (parseMergeStrategy sv).getD .override else .override
      | none => .override
    | _ => .override

/-- The loop of `ConfigMerger._merge_dict` over the overlay's items,
carrying the evolving `result` dict.  `copy.deepcopy` is the identity on
immutable values.  Branches, in source order: key absent in the result ⇒
copy the value in; both dicts ⇒ replace under `OVERRIDE`, recurse (with
`is_root=False`) under `EXTEND` and `INHERIT`; both lists ⇒ concatenate
under `EXTEND`, replace otherwise; anything else ⇒ the overlay value
wins. -/
def mergeItems (isRoot : Bool) (result : TomlTable) : TomlTable → TomlTable
  | .nil => result
  | .cons key value rest =>
    let strat := get_merge_strategy value isRoot
    let newResult :=
      match tableLookup result key, value with
      | none, _ => tableSet result key value
      | some (.table bt), .table vt =>
        if strat = .override then tableSet result key value
        else tableSet result key (.table (mergeItems false bt vt))
      | some (.list bl), .list vl =>
        if strat = .extend then tableSet result key (.list (tomlAppend bl vl))
        else tableSet result key value
      | some _, _ => tableSet result key value
    mergeItems isRoot newResult rest

/-- `ConfigMerger._merge_dict base overlay` (the `parent_key` argument
only feeds log messages and is dropped). -/
def merge_dict (isRoot : Bool) (base overlay : TomlTable) : TomlTable :=
  mergeItems isRoot base overlay

/-- `ConfigMerger._flatten_dict`: flatten a nested table to dot-notation
leaf paths, skipping the `_merge_strategy` directive key at every level;
arrays are leaves. -/
def flatten_dict : TomlTable → String → List (String × TomlVal)
  | .nil, _ => []
  | .cons k v rest, pk =>
    if k = "_merge_strategy" then flatten_dict rest pk
    else
      let nk := if pk = "" then k else pk ++ "." ++ k
      (match v with
       | .table t => flatten_dict t nk
       | _ => [(nk, v)]) ++ flatten_dict rest pk

/-- Default denied override prefixes (`ConfigMerger.DENIED_OVERRIDES`). -/
def deniedOverrides : List String :=
  ["config.model", "config.fallback_models", "openai.key", "openai.api_key",
   "anthropic.key", "config.git_provider", "github.user_token",
   "gitlab.personal_access_token", "bitbucket.bearer_token"]

/-- Default allowed override prefixes
(`ConfigMerger.DEFAULT_ALLOWED_OVERRIDES`).  A flat path covered by
neither list only produces a logged warning, which has no observable
effect here, so this list does not influence any modelled result; it is
reproduced for completeness. -/
def allowedOverrides : List String :=
  ["pr_reviewer.extra_instructions", "pr_reviewer.num_max_findings",
   "pr_reviewer.require_score_review", "pr_reviewer.require_tests_review",
   "pr_reviewer.require_security_review", "pr_code_suggestions.extra_instructions",
   "pr_code_suggestions.num_code_suggestions", "pr_description.extra_instructions",
   "pr_questions.extra_instructions"]

/-- `ConfigMerger._validate_overrides`: flatten the document and raise
`SecurityError` (modelled as `Except.error`) on the first leaf path that
starts with a denied prefix.  Paths outside the allowed list only log a
warning and continue. -/
def validate_overrides (denied : List String) (data : TomlTable) : Except String Unit :=
  match (flatten_dict data "").find? (fun kv => denied.any fun d => strStartsWith kv.1 d) with
  | some kv => Except.error ("Setting " ++ kv.1 ++ " cannot be overridden in subdirectory configs")
  | none => Except.ok ()

/-- A discovered configuration file (`ConfigFile` dataclass): its path and
its depth.  The path is kept relative to the repository root, so the
source's `relative_path` field coincides with `path` and is not repeated;
`depth` is the number of directory components of the containing
directory. -/
structure ConfigFile where
  path : List String
  depth : Nat
  deriving DecidableEq

/-- The body of `merge_configs`'s per-file `try` block: load the file
(`none` content models a load/parse failure), run the structural security
scan, validate the override scope when the depth is positive, and fold
the document into the accumulated map.  Any `Except.error` models an
exception raised inside the `try`. -/
def process_config_file (contents : List String → Option TomlTable)
    (denied : List String) (c : ConfigFile) (merged : TomlTable) : Except String TomlTable :=
  match contents c.path with
  | none => Except.error "failed to load config file"
  | some data =>
    if validate_file_security data then Except.error "dangerous directive detected"
    else
      match (if 0 < c.depth then validate_overrides denied data else Except.ok ()) with
      | Except.error e => Except.error e
      | Except.ok _ => Except.ok (merge_dict (c.depth = 0) merged data)

/-- `ConfigMerger.merge_configs`: fold the given configs, in the caller's
order, into one map.  The blanket `except Exception` in the source
catches every per-file failure — including the `SecurityError`s raised by
the security scan and the override validation — logs it, and continues
with the remaining files, so the fold never propagates an error. -/
def merge_configs (contents : List String → Option TomlTable)
    (denied : List String) (files : List ConfigFile) (base : TomlTable) : TomlTable :=
  files.foldl
    (fun merged c =>
      match process_config_file contents denied c merged with
      | Except.ok m => m
      | Except.error _ => merged)
    base

/-- A record of `validate_config_consistency`'s issue dicts
(`{file, type, message}`; `type` is a Lean keyword, hence `itype`). -/
structure ConfigIssue where
  file : List String
  itype : String
  message : String
  deriving DecidableEq

/-- `ConfigMerger.validate_config_consistency`: dry-run the load, the
security scan and the override validation per file, collecting issues
instead of raising.  Only `_validate_overrides` runs inside the inner
`try`, so its failures are reported as `security_violation`; failures of
the load or of the structural scan are caught by the outer `try` and
reported as `load_error`. -/
def validate_config_consistency (contents : List String → Option TomlTable)
    (denied : List String) (files : List ConfigFile) : List ConfigIssue :=
  files.foldl
    (fun issues c =>
      match contents c.path with
      | none => issues ++ [⟨c.path, "load_error", "failed to load config file"⟩]
      | some data =>
        if validate_file_security data then
          issues ++ [⟨c.path, "load_error", "dangerous directive detected"⟩]
        else if 0 < c.depth then
          match validate_overrides denied data with
          | Except.error e => issues ++ [⟨c.path, "security_violation", e⟩]
          | Except.ok _ => issues
        else issues)
    []

/-- Supported configuration file names, in precedence order
(`CONFIG_FILENAMES` in `config_discovery.py`). -/
def configFilenames : List String := [".pr_agent.toml", "pr_agent.toml", ".pr-agent.toml"]

/-- Resolve a root-relative lexical path to the location the operating
system actually opens: a number of levels above the repository root
together with the components below that point.  Each `".."` component
cancels the previous component or, at the top, escapes one level above
the root.  A location is inside the repository root exactly when the
escape count is zero. -/
def resolveComp : Nat × List String → String → Nat × List String
  | (u, acc), c =>
    if c = ".." then (if acc = [] then (u + 1, []) else (u, acc.dropLast))
    else (u, acc ++ [c])

/-- Resolved location of a root-relative lexical path. -/
def resolvePath (p : List String) : Nat × List String := p.foldl resolveComp (0, [])

/-- The filesystem: which resolved locations (escape count above the
repository root, components) are existing regular files. -/
def FS : Type := Nat → List String → Bool

/-- Existence test for a lexical path (`Path.is_file()`): the operating
system resolves the path and checks the resolved location. -/
def isFile (fs : FS) (p : List String) : Bool := fs (resolvePath p).1 (resolvePath p).2

/-- `ConfigDiscovery._is_within_repo`: `path.relative_to(self.repo_root)`
is a purely lexical component-prefix test, so with root-relative paths it
compares against the empty prefix.  It never resolves `".."`, which is
why it cannot detect escapes (its result is `true` for every lexical
path under the root, `".."` components included). -/
def is_within_repo (dir : List String) : Bool := ([] : List String).isPrefixOf dir

/-- `ConfigDiscovery._find_config_at_path`: probe the directory for the
three supported file names in precedence order; the first that exists
wins.  `relative_to(repo_root)` always succeeds lexically here because
every probed directory is root-relative, so the `ValueError` branch is
unreachable; `depth = len(relative_path.parent.parts)` is the component
count of the directory. -/
def find_config_at_path (fs : FS) (dir : List String) : Option ConfigFile :=
  configFilenames.findSome? fun name =>
    if isFile fs (dir ++ [name]) then some ⟨dir ++ [name], dir.length⟩ else none

/-- The `while True` walk of `ConfigDiscovery._walk_up_from_file`, with an
explicit fuel argument for structural recursion.  Each iteration moves
one directory up, so the loop runs at most `dir.length + 1` times; the
caller passes fuel strictly greater than that bound, making the `0` case
unreachable.  Iteration order of the checks matches the source: depth
guard (log a warning and stop, never an error), lexical repo-root
containment, probe, stop at the repository root.  The source's extra
`parent == current_dir` filesystem-root check is unreachable here because
`dir = []` (the repository root) breaks first. -/
def walkLoop (fs : FS) (maxDepth : Nat) : Nat → Nat → List String → List ConfigFile
  | 0, _, _ => []
  | fuel + 1, depth, dir =>
    if maxDepth < depth then []
    else if ¬ is_within_repo dir then []
    else
      let cs := (find_config_at_path fs dir).toList
      if dir = [] then cs
      else cs ++ walkLoop fs maxDepth fuel (depth + 1) dir.dropLast

/-- `ConfigDiscovery._walk_up_from_file`.  The starting directory is
`file_path.parent` when the path exists as a file and the path itself
otherwise — the source's comment intends the parent for non-existent
files, but the conditional expression yields the un-truncated path in
that branch. -/
def walk_up_from_file (fs : FS) (maxDepth : Nat) (filePath : List String) : List ConfigFile :=
  let start := if isFile fs filePath then filePath.dropLast else filePath
  walkLoop fs maxDepth (start.length + 1) 0 start

/-- Add an element to the accumulator unless already present — the effect
of `set.add`/`set.update` on the discovered-config set, with first-come
iteration order standing in for Python's unspecified set order (no claim
depends on the order of equal-depth entries). -/
def addUnique (acc : List ConfigFile) (c : ConfigFile) : List ConfigFile :=
  if c ∈ acc then acc else acc ++ [c]

/-- Deduplicate a list keeping first occurrences (the discovered set). -/
def dedupList (l : List ConfigFile) : List ConfigFile := l.foldl addUnique []

/-- One step of a stable insertion sort by depth. -/
def insertByDepth (c : ConfigFile) : List ConfigFile → List ConfigFile
  | [] => [c]
  | d :: ds => if c.depth < d.depth then c :: d :: ds else d :: insertByDepth c ds

/-- Stable sort by ascending depth (`sorted(configs, key=lambda c: c.depth)`). -/
def sortByDepth (l : List ConfigFile) : List ConfigFile :=
  l.foldl (fun acc c => insertByDepth c acc) []

/-- `ConfigDiscovery.discover_configs` (uncached path, which the cache
merely memoizes): probe the repository root, walk up from every changed
file, deduplicate, and sort ascending by depth. -/
def discover_configs (fs : FS) (maxDepth : Nat) (changedFiles : List (List String)) :
    List ConfigFile :=
  let rootConfigs := (find_config_at_path fs []).toList
  let walked := (changedFiles.map (walk_up_from_file fs maxDepth)).flatten
  sortByDepth (dedupList (rootConfigs ++ walked))

/-- `ResolvedConfig` dataclass: effective configuration, contributing
config files in merge order, and the queried file path. -/
structure ResolvedConfig where
  config : TomlTable
  source_configs : List ConfigFile
  file_path : List String
  deriving DecidableEq

/-- `ConfigResolver._filter_applicable_configs`: keep the configs whose
containing directory passes `file_abs_path.relative_to(config_dir)` —
lexically, the directories that are a component-prefix of the queried
file's full path. -/
def filter_applicable_configs (filePath : List String) (allConfigs : List ConfigFile) :
    List ConfigFile :=
  allConfigs.filter fun c => c.path.dropLast.isPrefixOf filePath

/-- `ConfigResolver.get_config_for_file` (uncached path; the resolution
cache memoizes the result by file path).  When path-scoped configuration
is disabled the empty configuration is returned at once.  The
`changed_files or [file_path]` default means both `None` and an empty
list fall back to the singleton.  The resolver's merger is built with the
default policy lists. -/
def get_config_for_file (en : Bool) (fs : FS) (contents : List String → Option TomlTable)
    (maxDepth : Nat) (filePath : List String) (changedFiles : Option (List (List String))) :
    ResolvedConfig :=
  if en = false then ⟨.nil, [], filePath⟩
  else
    let files := match changedFiles with
      | some l => if l = [] then [filePath] else l
      | none => [filePath]
    let allConfigs := discover_configs fs maxDepth files
    let applicable := filter_applicable_configs filePath allConfigs
    ⟨merge_configs contents deniedOverrides applicable .nil, applicable, filePath⟩

/-- `ConfigResolver.get_config_for_files`: batch resolution that runs
discovery once over the whole batch and then filters and merges per
file.  (The result dict is modelled as the association list in the order
of the requested paths.) -/
def get_config_for_files (en : Bool) (fs : FS) (contents : List String → Option TomlTable)
    (maxDepth : Nat) (filePaths : List (List String)) :
    List (List String × ResolvedConfig) :=
  if en = false ∨ filePaths = [] then
    filePaths.map fun p => (p, ⟨.nil, [], p⟩)
  else
    let allConfigs := discover_configs fs maxDepth filePaths
    filePaths.map fun p =>
      let applicable := filter_applicable_configs p allConfigs
      (p, ⟨merge_configs contents deniedOverrides applicable .nil, applicable, p⟩)

/-- The dotted-path walk of `get_effective_setting`: index the current
value by each part in turn; a missing key (`KeyError`) or a non-dict
current value (`TypeError`) aborts the walk and triggers the fallback. -/
def lookupParts : TomlVal → List String → Option TomlVal
  | v, [] => some v
  | .table t, p :: ps =>
    match tableLookup t p with
    | some v => lookupParts v ps
    | none => none
  | _, _ :: _ => none

/-- `ConfigResolver.get_effective_setting`: resolve the file's config,
look the lowercased dot-split setting path up in it, fall back to the
global settings store (an external collaborator, modelled as a function
from lowercased dotted path to optional value, `None` meaning absent),
and finally to the default. -/
def get_effective_setting (globalGet : String → Option TomlVal) (en : Bool) (fs : FS)
    (contents : List String → Option TomlTable) (maxDepth : Nat)
    (filePath : List String) (settingPath : String) (dflt : TomlVal) : TomlVal :=
  let resolved := get_config_for_file en fs contents maxDepth filePath none
  match lookupParts (.table resolved.config) (splitDots (strLower settingPath)) with
  | some v => v
  | none =>
    match globalGet (strLower settingPath) with
    | some g => g
    | none => dflt

/-- Modelled from the spec: the filtering rule as the spec words it —
"the subset of C whose directory is a prefix (ancestor-or-equal) of F's
directory".  Kept for comparison against the source's
`filter_applicable_configs`, which tests the prefix against F's full
path. -/
def spec_filter_applicable (filePath : List String) (allConfigs : List ConfigFile) :
    List ConfigFile :=
  allConfigs.filter fun c => c.path.dropLast.isPrefixOf filePath.dropLast

/-- Case-insensitive table lookup: the key matches when its lowercased
form equals the (already lowercased) query part. -/
def ciTableLookup : TomlTable → String → Option TomlVal
  | .nil, _ => none
  | .cons k v rest, key => if strLower k = key then some v else ciTableLookup rest key

/-- Case-insensitive dotted-path walk. -/
def ciLookupParts : TomlVal → List String → Option TomlVal
  | v, [] => some v
  | .table t, p :: ps =>
    match ciTableLookup t p with
    | some v => ciLookupParts v ps
    | none => none
  | _, _ :: _ => none

/-- Modelled from the spec: `effective_setting` as the spec words it —
a case-insensitive dot-split lookup of the setting path in the file's
resolved config, then the global store, then the default.  Kept for
comparison against the source's `get_effective_setting`, which lowercases
only the query and matches config keys exactly. -/
def effective_setting_spec (globalGet : String → Option TomlVal) (en : Bool) (fs : FS)
    (contents : List String → Option TomlTable) (maxDepth : Nat)
    (filePath : List String) (settingPath : String) (dflt : TomlVal) : TomlVal :=
  let resolved := get_config_for_file en fs contents maxDepth filePath none
  match ciLookupParts (.table resolved.config) (splitDots (strLower settingPath)) with
  | some v => v
  | none =>
    match globalGet (strLower settingPath) with
    | some g => g
    | none => dflt

mutual
/-- Whether every key of a table, and of its nested tables, is already
lowercase. -/
def lowerTable : TomlTable → Bool
  | .nil => true
  | .cons k v rest => (strLower k = k : Bool) && lowerValTables v && lowerTable rest

/-- Whether every key of the tables nested inside a value is lowercase
(arrays are opaque to the dotted-path walk and are not descended). -/
def lowerValTables : TomlVal → Bool
  | .table t => lowerTable t
  | _ => true
end

/-- Erase every `_merge_strategy` directive key from a table and from its
nested tables — the data the directive-skipping flatten is meant to
see. -/
def stripDirectives : TomlTable → TomlTable
  | .nil => .nil
  | .cons k v rest =>
    if k = "_merge_strategy" then stripDirectives rest
    else
      .cons k
        (match v with
         | .table t => .table (stripDirectives t)
         | other => other)
        (stripDirectives rest)

/-- Iterated `dropLast`: the directory reached after walking `k` levels
up from `dir`. -/
def upk : Nat → List String → List String
  | 0, dir => dir
  | k + 1, dir => upk k dir.dropLast

/-- Concrete fixture: a depth-1 config file at `src/.pr_agent.toml`. -/
def childBad : ConfigFile := ⟨["src", ".pr_agent.toml"], 1⟩

/-- Concrete fixture: the root config file. -/
def rootOk : ConfigFile := ⟨[".pr_agent.toml"], 0⟩

/-- Concrete fixture: a parsed document setting `config.model = "x"`. -/
def cmContent : TomlTable := .cons "config" (.table (.cons "model" (.str "x") .nil)) .nil

/-- Concrete fixture: both config files contain `config.model = "x"`. -/
def c1contents : List String → Option TomlTable := fun p =>
  if p = ["src", ".pr_agent.toml"] ∨ p = [".pr_agent.toml"] then some cmContent else none

/-- Concrete fixture: a parsed document with a dangerous dynamic-include
directive (`dynaconf_include`), as in `test_security_validation`. -/
def dangerContent : TomlTable :=
  .cons "config" (.table (.cons "model" (.str "gpt-4") .nil))
    (.cons "dangerous"
      (.table (.cons "dynaconf_include" (.list (.cons (.str "other_file.toml") .nil)) .nil)) .nil)

/-- Concrete fixture: an unobjectionable depth-1 document. -/
def goodContent : TomlTable :=
  .cons "pr_reviewer" (.table (.cons "extra_instructions" (.str "ok") .nil)) .nil

/-- Concrete fixture: root config dangerous, child config fine. -/
def c2contents : List String → Option TomlTable := fun p =>
  if p = [".pr_agent.toml"] then some dangerContent
  else if p = ["src", ".pr_agent.toml"] then some goodContent else none

/-- Concrete fixture filesystem for the path-escape scenario: next to the
repository root (one level above it) lives a directory `outside`
containing a changed file and a config file.  Nothing exists inside the
repository itself. -/
def fsC3 : FS := fun u p =>
  decide ((u, p) ∈ [(1, ["outside", "f.py"]), (1, ["outside", ".pr_agent.toml"])])

/-- Concrete fixture: a depth-1 document carrying a `_merge_strategy`
directive next to an allowed setting. -/
def c5content : TomlTable :=
  .cons "pr_reviewer"
    (.table (.cons "_merge_strategy" (.str "override")
      (.cons "extra_instructions" (.str "x") .nil))) .nil

/-- Concrete fixture: contents for the directive-leak scenario. -/
def c5contents : List String → Option TomlTable := fun p =>
  if p = ["src", ".pr_agent.toml"] then some c5content else none

/-- Concrete fixture filesystem: only a root config file exists. -/
def c6fs : FS := fun u p => decide (u = 0 ∧ p = [".pr_agent.toml"])

/-- Concrete fixture: the root config stores a value under the uppercase
key `A`. -/
def c6contents : List String → Option TomlTable := fun p =>
  if p = [".pr_agent.toml"] then some (.cons "A" (.int 1) .nil) else none

/-- Concrete fixture: the root config stores only lowercase keys. -/
def c6lcontents : List String → Option TomlTable := fun p =>
  if p = [".pr_agent.toml"] then
    some (.cons "pr_reviewer" (.table (.cons "num_max_findings" (.int 7) .nil)) .nil)
  else none

/-- Concrete fixture: an always-empty global settings store. -/
def gNone : String → Option TomlVal := fun _ => none

/-- Concrete fixture filesystem: one config file in directory `a`, no
other files (in particular none of the changed files exist — a pending
change set). -/
def fsC7 : FS := fun u p => decide (u = 0 ∧ p = ["a", ".pr_agent.toml"])

/-- Concrete fixture: the config in `a` parses to an empty document. -/
def c7contents : List String → Option TomlTable := fun p =>
  if p = ["a", ".pr_agent.toml"] then some .nil else none

/-- Concrete fixture filesystem: one config file in the depth-1 directory
`a`; the changed file `a/b/c/d/e/f/new.py` does not exist. -/
def fsC8 : FS := fun u p => decide (u = 0 ∧ p = ["a", ".pr_agent.toml"])

/-- Concrete fixture filesystem for the depth-limit scenario: a changed
file six directories deep, a root config, and a config at every
directory on the chain from the root to the file. -/
def fsC9 : FS := fun u p =>
  decide (u = 0 ∧
    (p = ["a", "b", "c", "d", "e", "f", "g.py"] ∨
     p = [".pr_agent.toml"] ∨
     p = ["a", ".pr_agent.toml"] ∨
     p = ["a", "b", "c", "d", "e", "f", ".pr_agent.toml"]))

/-- Claim C1: the source code contradicts the claim's propagation part.
For the depth-1 config `src/.pr_agent.toml` containing
`config.model = "x"`: the override validation does raise a security
error, but `merge_configs` swallows it in its blanket per-file exception
handler and returns a merged map (here the empty one) instead of letting
the error propagate; the same document merges without error at the root;
and `validate_config_consistency` reports exactly one
`security_violation` issue for the offending file. -/
theorem c1_merge_swallows_denied_override :
    (validate_overrides deniedOverrides cmContent
      = Except.error "Setting config.model cannot be overridden in subdirectory configs")
    ∧ merge_configs c1contents deniedOverrides [childBad] .nil = .nil
    ∧ merge_configs c1contents deniedOverrides [rootOk] .nil = cmContent
    ∧ (validate_config_consistency c1contents deniedOverrides [rootOk, childBad]).map
        (fun i => (i.file, i.itype))
      = [(["src", ".pr_agent.toml"], "security_violation")] :=
  ⟨rfl, by decide, by decide, by decide⟩

/-- Claim C2: the source code contradicts the claim.  With a root config
whose document carries a dangerous `dynaconf_include` directive followed
by a clean depth-1 config, the structural security scan flags the first
file, but `merge_configs` swallows the failure in its blanket per-file
exception handler, folds the subsequent file in, and returns a merged
map — it does not abort the merge call. -/
theorem c2_merge_swallows_dangerous_directive :
    validate_file_security dangerContent = true
    ∧ merge_configs c2contents deniedOverrides
        [⟨[".pr_agent.toml"], 0⟩, ⟨["src", ".pr_agent.toml"], 1⟩] .nil
      = goodContent := by
  constructor
  · decide
  · decide

/-- Claim C3: the source code contradicts the claim.  With the changed
file `../outside/f.py`, discovery probes the directory `../outside` —
whose resolved location lies one level above the repository root —
because `_is_within_repo`'s `relative_to` test is purely lexical, and it
returns the config file found there: a `ConfigFile` whose resolved path
is outside the repository root. -/
theorem c3_discovery_escapes_repo_root :
    discover_configs fsC3 5 [["..", "outside", "f.py"]]
      = [⟨["..", "outside", ".pr_agent.toml"], 2⟩]
    ∧ (resolvePath ["..", "outside", ".pr_agent.toml"]).1 = 1 := by
  constructor
  · decide
  · decide

/-- Claim C4 counterexample: the filtering step keeps a config whose
directory equals the queried file's full path (`a/b.py`), which is not
an ancestor-or-equal of the file's directory `a` — the claim's
characterization (embodied by `spec_filter_applicable`) excludes it,
the code includes it. -/
theorem c4_counterexample :
    filter_applicable_configs ["a", "b.py"] [⟨["a", "b.py", ".pr_agent.toml"], 2⟩]
      = [⟨["a", "b.py", ".pr_agent.toml"], 2⟩]
    ∧ spec_filter_applicable ["a", "b.py"] [⟨["a", "b.py", ".pr_agent.toml"], 2⟩] = [] := by
  constructor
  · decide
  · decide

/-- Claim C5 counterexample: merging a depth-1 config whose
`pr_reviewer` section carries a `_merge_strategy` directive (next to an
allowed setting, so override validation passes — the flatten step does
skip the directive) produces a merged map that contains the
`_merge_strategy` key: the directive is copied into the output when its
section is newly added to the accumulator. -/
theorem c5_counterexample :
    tableHasKeyDeep "_merge_strategy"
      (merge_configs c5contents deniedOverrides [⟨["src", ".pr_agent.toml"], 1⟩] .nil) = true
    ∧ validate_overrides deniedOverrides c5content = Except.ok () :=
  ⟨by decide, rfl⟩

/-- Claim C6 counterexample: with the resolved config `{A = 1}` (an
uppercase key) and an empty global store, a case-insensitive lookup of
setting `A` finds the value `1` (as `effective_setting_spec` does), but
`get_effective_setting` lowercases only the query, misses the key, and
returns the default. -/
theorem c6_counterexample :
    get_effective_setting gNone true c6fs c6contents 5 ["f.py"] "A" (.str "fallback")
      = .str "fallback"
    ∧ effective_setting_spec gNone true c6fs c6contents 5 ["f.py"] "A" (.str "fallback")
      = .int 1 := by
  constructor
  · decide
  · decide

/-- Claim C7 counterexample: with `max_depth = 1`, a config in directory
`a`, and the batch `[a/b/c/f.py, a/g.py]`, batch resolution discovers the
config through the shallow file and applies it to the deep file
`a/b/c/f.py`, while per-file resolution of that deep file — whose own
upward walk cannot reach `a` within the depth budget — yields no
sources: the batch is not semantically equivalent to per-file calls. -/
theorem c7_counterexample :
    get_config_for_files true fsC7 c7contents 1 [["a", "b", "c", "f.py"], ["a", "g.py"]]
      = [(["a", "b", "c", "f.py"],
          ⟨.nil, [⟨["a", ".pr_agent.toml"], 1⟩], ["a", "b", "c", "f.py"]⟩),
         (["a", "g.py"],
          ⟨.nil, [⟨["a", ".pr_agent.toml"], 1⟩], ["a", "g.py"]⟩)]
    ∧ get_config_for_file true fsC7 c7contents 1 ["a", "b", "c", "f.py"] none
      = ⟨.nil, [], ["a", "b", "c", "f.py"]⟩ := by
  constructor
  · decide
  · decide

/-- Claim C8: the source code contradicts the claim (and its own
comment).  For the non-existent changed file `a/b/c/d/e/f/new.py`, the
walk starts from the file path itself instead of its intended parent
directory, spending one depth level on a phantom directory: with the
default `max_depth = 5` the config at depth 1 is missed entirely, while
the same walk started from the intended parent directory finds it.  No
error is raised in either case. -/
theorem c8_walk_starts_at_file_path :
    discover_configs fsC8 5 [["a", "b", "c", "d", "e", "f", "new.py"]] = []
    ∧ walk_up_from_file fsC8 5 ["a", "b", "c", "d", "e", "f"]
      = [⟨["a", ".pr_agent.toml"], 1⟩] := by
  constructor
  · decide
  · decide

/-- Membership after an insertion-sort step. -/
theorem mem_insertByDepth {x c : ConfigFile} {l : List ConfigFile} :
    x ∈ insertByDepth c l ↔ x = c ∨ x ∈ l := by
  induction l with
  | nil => simp [insertByDepth]
  | cons d ds ih =>
    simp only [insertByDepth]
    split
    · simp [List.mem_cons]
    · simp [List.mem_cons, ih]
      tauto

/-- An insertion-sort step is a permutation of consing. -/
theorem perm_insertByDepth (c : ConfigFile) (l : List ConfigFile) :
    List.Perm (insertByDepth c l) (c :: l) := by
  induction l with
  | nil => simp [insertByDepth]
  | cons d ds ih =>
    simp only [insertByDepth]
    split
    · exact List.Perm.refl _
    · exact (ih.cons d).trans (List.Perm.swap c d ds)

/-- An insertion-sort step preserves sortedness by depth. -/
theorem sorted_insertByDepth {c : ConfigFile} {l : List ConfigFile}
    (h : l.Sorted (fun a b => a.depth ≤ b.depth)) :
    (insertByDepth c l).Sorted (fun a b => a.depth ≤ b.depth) := by
  induction l with
  | nil => simp [insertByDepth]
  | cons d ds ih =>
    rcases List.sorted_cons.mp h with ⟨hd, hds⟩
    simp only [insertByDepth]
    by_cases hlt : c.depth < d.depth
    · rw [if_pos hlt]
      refine List.sorted_cons.mpr ⟨?_, h⟩
      intro b hb
      rcases List.mem_cons.mp hb with rfl | hb
      · omega
      · exact le_trans (le_of_lt hlt) (hd b hb)
    · rw [if_neg hlt]
      refine List.sorted_cons.mpr ⟨?_, ih hds⟩
      intro b hb
      rcases mem_insertByDepth.mp hb with rfl | hb
      · omega
      · exact hd b hb

/-- The insertion-sort fold permutes its input onto the accumulator. -/
theorem perm_foldl_insertByDepth (l : List ConfigFile) :
    ∀ acc, List.Perm (l.foldl (fun a c => insertByDepth c a) acc) (l ++ acc) := by
  induction l with
  | nil => intro acc; simp
  | cons x xs ih =>
    intro acc
    simp only [List.foldl_cons, List.cons_append]
    exact ((ih _).trans ((perm_insertByDepth x acc).append_left xs)).trans List.perm_middle

/-- `sortByDepth` permutes its input. -/
theorem perm_sortByDepth (l : List ConfigFile) : List.Perm (sortByDepth l) l := by
  have h := perm_foldl_insertByDepth l []
  simpa [sortByDepth] using h

/-- Membership is unchanged by `sortByDepth`. -/
theorem mem_sortByDepth {x : ConfigFile} {l : List ConfigFile} :
    x ∈ sortByDepth l ↔ x ∈ l := (perm_sortByDepth l).mem_iff

/-- The insertion-sort fold sorts, given a sorted accumulator. -/
theorem sorted_foldl_insertByDepth (l : List ConfigFile) :
    ∀ acc, acc.Sorted (fun a b => a.depth ≤ b.depth) →
      (l.foldl (fun a c => insertByDepth c a) acc).Sorted (fun a b => a.depth ≤ b.depth) := by
  induction l with
  | nil => intro acc h; simpa using h
  | cons x xs ih => intro acc h; exact ih _ (sorted_insertByDepth h)

/-- `sortByDepth` sorts non-decreasing by depth. -/
theorem sorted_sortByDepth (l : List ConfigFile) :
    (sortByDepth l).Sorted (fun a b => a.depth ≤ b.depth) :=
  sorted_foldl_insertByDepth l [] (by simp)

/-- Membership in the deduplicating fold. -/
theorem mem_foldl_addUnique (l : List ConfigFile) :
    ∀ acc x, x ∈ l.foldl addUnique acc ↔ x ∈ acc ∨ x ∈ l := by
  induction l with
  | nil => simp
  | cons y ys ih =>
    intro acc x
    simp only [List.foldl_cons, ih, addUnique]
    split
    · simp only [List.mem_cons]
      constructor
      · tauto
      · rintro (h | rfl | h)
        · exact .inl h
        · left; assumption
        · exact .inr h
    · simp [List.mem_append, List.mem_cons]
      tauto

/-- The deduplicating fold preserves nodup accumulators. -/
theorem nodup_foldl_addUnique (l : List ConfigFile) :
    ∀ acc, acc.Nodup → (l.foldl addUnique acc).Nodup := by
  induction l with
  | nil => intro acc h; simpa using h
  | cons y ys ih =>
    intro acc h
    simp only [List.foldl_cons]
    apply ih
    unfold addUnique
    split
    · exact h
    · exact (List.perm_append_singleton y acc).nodup_iff.mpr (List.nodup_cons.mpr ⟨by assumption, h⟩)

/-- Membership is unchanged by `dedupList`. -/
theorem mem_dedupList {x : ConfigFile} {l : List ConfigFile} : x ∈ dedupList l ↔ x ∈ l := by
  simp [dedupList, mem_foldl_addUnique]

/-- `dedupList` has no duplicates. -/
theorem nodup_dedupList (l : List ConfigFile) : (dedupList l).Nodup :=
  nodup_foldl_addUnique l [] (by simp)

/-- Walking `k` levels up is taking the first `length - k` components. -/
theorem upk_eq_take : ∀ (k : Nat) (d : List String), upk k d = d.take (d.length - k) := by
  intro k
  induction k with
  | zero => intro d; simp [upk]
  | succ k ih =>
    intro d
    rw [upk, ih d.dropLast, List.dropLast_eq_take, List.take_take, List.length_take]
    congr 1
    omega

/-- A prefix is reached from the full list by walking up the length
difference. -/
theorem upk_of_pre {l d : List String} (h : l <+: d) :
    upk (d.length - l.length) d = l := by
  have hl : l.length ≤ d.length := h.length_le
  rw [upk_eq_take, show d.length - (d.length - l.length) = l.length by omega]
  exact (List.prefix_iff_eq_take.mp h).symm

/-- A proper prefix of a list is a prefix of the list without its last
element. -/
theorem prefix_dropLast_of_lt {l d : List String} (h : l <+: d) (hlen : l.length < d.length) :
    l <+: d.dropLast := by
  rw [List.prefix_iff_eq_take] at h ⊢
  rw [List.dropLast_eq_take, List.take_take, show min l.length (d.length - 1) = l.length by omega]
  exact h

/-- A found config file records its containing directory (as
`path.dropLast`) and that directory's component count (as `depth`). -/
theorem find_config_shape {fs : FS} {dir : List String} {c : ConfigFile}
    (h : find_config_at_path fs dir = some c) :
    c.path.dropLast = dir ∧ c.depth = dir.length := by
  unfold find_config_at_path at h
  have hgen : ∀ names : List String,
      (List.findSome? (fun name =>
        if isFile fs (dir ++ [name]) then some (⟨dir ++ [name], dir.length⟩ : ConfigFile)
        else none) names) = some c →
      c.path.dropLast = dir ∧ c.depth = dir.length := by
    intro names
    induction names with
    | nil => intro h'; simp at h'
    | cons n ns ih =>
      intro h'
      rw [List.findSome?_cons] at h'
      by_cases hn : isFile fs (dir ++ [n]) = true
      · rw [if_pos hn] at h'
        obtain rfl := Option.some.inj h'
        exact ⟨List.dropLast_concat, rfl⟩
      · rw [if_neg hn] at h'
        exact ih h'
  exact hgen configFilenames h

/-- A directory with none of the supported file names has no config. -/
theorem find_config_none {fs : FS} {dir : List String}
    (h : ∀ n ∈ configFilenames, isFile fs (dir ++ [n]) = false) :
    find_config_at_path fs dir = none := by
  unfold find_config_at_path
  rw [List.findSome?_eq_none_iff]
  intro n hn
  rw [if_neg (by simp [h n hn])]

/-- Lexical repo containment always holds for the root-relative walk. -/
theorem is_within_repo_true (dir : List String) : is_within_repo dir = true := by
  cases dir <;> rfl

/-- Every member of the walk loop was found by probing some directory at
most `maxDepth - depth` further up-steps (and at most `length` of them)
from the current directory. -/
theorem mem_walkLoop {fs : FS} {maxDepth : Nat} :
    ∀ (fuel depth : Nat) (dir : List String) (c : ConfigFile),
      c ∈ walkLoop fs maxDepth fuel depth dir →
      ∃ k, depth + k ≤ maxDepth ∧ k ≤ dir.length ∧
        find_config_at_path fs (upk k dir) = some c := by
  intro fuel
  induction fuel with
  | zero =>
    intro depth dir c h
    simp [walkLoop] at h
  | succ fuel ih =>
    intro depth dir c h
    rw [walkLoop] at h
    by_cases h1 : maxDepth < depth
    · rw [if_pos h1] at h; simp at h
    · rw [if_neg h1, if_neg (by simp [is_within_repo_true])] at h
      by_cases h3 : dir = []
      · rw [if_pos h3] at h
        rw [Option.mem_toList, Option.mem_def] at h
        exact ⟨0, by omega, by omega, h⟩
      · rw [if_neg h3] at h
        rcases List.mem_append.mp h with hfound | hrec
        · rw [Option.mem_toList, Option.mem_def] at hfound
          exact ⟨0, by omega, by omega, hfound⟩
        · obtain ⟨k, hk1, hk2, hfind⟩ := ih (depth + 1) dir.dropLast c hrec
          have hlen : dir.dropLast.length = dir.length - 1 := by simp [List.length_dropLast]
          have hpos : 0 < dir.length := List.length_pos.mpr h3
          refine ⟨k + 1, by omega, by omega, ?_⟩
          exact hfind

/-- Conversely, a config found at most `maxDepth - depth` up-steps away
(within the directory's length, and the loop given enough fuel) is
collected by the walk loop. -/
theorem walkLoop_mem_of_found {fs : FS} {maxDepth : Nat} :
    ∀ (fuel depth k : Nat) (dir : List String) (c : ConfigFile),
      dir.length < fuel → depth + k ≤ maxDepth → k ≤ dir.length →
      find_config_at_path fs (upk k dir) = some c →
      c ∈ walkLoop fs maxDepth fuel depth dir := by
  intro fuel
  induction fuel with
  | zero => intro depth k dir c hfuel; omega
  | succ fuel ih =>
    intro depth k dir c hfuel hdk hk hfind
    rw [walkLoop, if_neg (by omega : ¬ maxDepth < depth),
      if_neg (by simp [is_within_repo_true])]
    cases k with
    | zero =>
      by_cases h3 : dir = []
      · rw [if_pos h3]
        subst h3
        simp only [upk] at hfind
        simp [hfind]
      · rw [if_neg h3]
        refine List.mem_append.mpr (.inl ?_)
        simp only [upk] at hfind
        simp [hfind]
    | succ k =>
      have h3 : dir ≠ [] := by
        intro hnil
        rw [hnil] at hk
        simp at hk
      rw [if_neg h3]
      refine List.mem_append.mpr (.inr ?_)
      have hlen : dir.dropLast.length = dir.length - 1 := by simp [List.length_dropLast]
      have hne : 0 < dir.length := List.length_pos.mpr h3
      exact ih (depth + 1) k dir.dropLast c (by omega) (by omega) (by omega) hfind

/-- Membership in the discovery result: a config comes from the root
probe or from the walk of one of the changed files. -/
theorem mem_discover_iff {fs : FS} {maxDepth : Nat} {changed : List (List String)}
    {c : ConfigFile} :
    c ∈ discover_configs fs maxDepth changed ↔
      (find_config_at_path fs [] = some c ∨
       ∃ f ∈ changed, c ∈ walk_up_from_file fs maxDepth f) := by
  unfold discover_configs
  rw [mem_sortByDepth, mem_dedupList, List.mem_append, List.mem_flatten]
  constructor
  · rintro (hroot | ⟨l, hl, hc⟩)
    · left
      rwa [Option.mem_toList, Option.mem_def] at hroot
    · right
      obtain ⟨f, hf, rfl⟩ := List.mem_map.mp hl
      exact ⟨f, hf, hc⟩
  · rintro (hroot | ⟨f, hf, hc⟩)
    · left
      rwa [Option.mem_toList, Option.mem_def]
    · right
      exact ⟨walk_up_from_file fs maxDepth f, List.mem_map.mpr ⟨f, hf, rfl⟩, hc⟩

/-- Every discovered config is exactly what probing its own containing
directory returns. -/
theorem mem_discover_found {fs : FS} {maxDepth : Nat} {changed : List (List String)}
    {c : ConfigFile} (h : c ∈ discover_configs fs maxDepth changed) :
    find_config_at_path fs c.path.dropLast = some c := by
  rcases mem_discover_iff.mp h with hroot | ⟨f, _, hw⟩
  · rw [(find_config_shape hroot).1]
    exact hroot
  · unfold walk_up_from_file at hw
    obtain ⟨k, _, _, hfind⟩ := mem_walkLoop _ _ _ _ hw
    rw [(find_config_shape hfind).1]
    exact hfind

/-- Claim C10: for every filesystem, depth bound and changed-file list,
the list returned by discovery is sorted non-decreasing by depth and
contains no two entries with the same path (deduplication is by full
value, but depth and relative path are functions of the path, so path
duplicates cannot survive); `merge_configs` folds configs in exactly this
list order, hence shallowest-first. -/
theorem c10_discovery_sorted_nodup (fs : FS) (maxDepth : Nat) (changed : List (List String)) :
    (discover_configs fs maxDepth changed).Sorted (fun a b => a.depth ≤ b.depth)
    ∧ ((discover_configs fs maxDepth changed).map ConfigFile.path).Nodup := by
  constructor
  · unfold discover_configs
    exact sorted_sortByDepth _
  · have hnd : (discover_configs fs maxDepth changed).Nodup := by
      unfold discover_configs
      exact (perm_sortByDepth _).nodup_iff.mpr (nodup_dedupList _)
    apply hnd.map_on
    intro x hx y hy hxy
    have hxf := mem_discover_found hx
    have hyf := mem_discover_found hy
    rw [hxy] at hxf
    exact Option.some.inj (hxf.symm.trans hyf)

/-- Claim C9: the walk beyond `max_depth` stops without error (discovery
is a total function whose depth guard just truncates the walk), and for
an existing changed file whose directory is six levels deep with
`max_depth = 5`, every returned config was found either by the
unconditional probe of the repository root — so a root config is always
included — or by probing within the first five levels upward of the
file's directory (the directory itself counting as level zero). -/
theorem c9_max_depth_bounded (fs : FS) (p : List String)
    (hfile : isFile fs p = true) (hdeep : p.dropLast.length = 6) :
    (∀ c ∈ discover_configs fs 5 [p],
        find_config_at_path fs [] = some c ∨
        ∃ k ≤ 5, find_config_at_path fs (upk k p.dropLast) = some c)
    ∧ (∀ r, find_config_at_path fs [] = some r → r ∈ discover_configs fs 5 [p]) := by
  constructor
  · intro c hc
    rcases mem_discover_iff.mp hc with hroot | ⟨f, hf, hw⟩
    · exact .inl hroot
    · right
      rw [List.mem_singleton] at hf
      subst hf
      unfold walk_up_from_file at hw
      rw [if_pos hfile] at hw
      obtain ⟨k, hk1, hk2, hfind⟩ := mem_walkLoop _ _ _ _ hw
      exact ⟨k, by omega, hfind⟩
  · intro r hr
    exact mem_discover_iff.mpr (.inl hr)

/-- Witness for claim C9 at a concrete six-deep repository. -/
theorem c9_max_depth_bounded_witness :
    (isFile fsC9 ["a", "b", "c", "d", "e", "f", "g.py"] = true
      ∧ (["a", "b", "c", "d", "e", "f", "g.py"] : List String).dropLast.length = 6)
    ∧ ((∀ c ∈ discover_configs fsC9 5 [["a", "b", "c", "d", "e", "f", "g.py"]],
          find_config_at_path fsC9 [] = some c ∨
          ∃ k ≤ 5, find_config_at_path fsC9
            (upk k (["a", "b", "c", "d", "e", "f", "g.py"] : List String).dropLast) = some c)
        ∧ (∀ r, find_config_at_path fsC9 [] = some r →
            r ∈ discover_configs fsC9 5 [["a", "b", "c", "d", "e", "f", "g.py"]])) :=
  ⟨⟨by decide, by decide⟩,
   c9_max_depth_bounded fsC9 ["a", "b", "c", "d", "e", "f", "g.py"] (by decide) (by decide)⟩

/-- Claim C4 (amended): the filtering step returns exactly the subset of
the given configs whose containing directory is a component-prefix of
the queried file's full path; consequently a config in a sibling
directory of the file's directory (same component count, different
directory) is never included. -/
theorem c4_filter_exact (F : List String) (C : List ConfigFile) :
    (∀ c, c ∈ filter_applicable_configs F C ↔ c ∈ C ∧ c.path.dropLast <+: F)
    ∧ (∀ c ∈ C, c.path.dropLast.length = F.dropLast.length →
        c.path.dropLast ≠ F.dropLast → c ∉ filter_applicable_configs F C) := by
  constructor
  · intro c
    rw [filter_applicable_configs, List.mem_filter, List.isPrefixOf_iff_prefix]
  · intro c _ hlen hne hmem
    have hpre : c.path.dropLast <+: F :=
      List.isPrefixOf_iff_prefix.mp (List.mem_filter.mp hmem).2
    rcases Nat.lt_or_ge c.path.dropLast.length F.length with hlt | hge
    · exact hne (List.IsPrefix.eq_of_length (prefix_dropLast_of_lt hpre hlt) hlen)
    · have heq : c.path.dropLast = F :=
        List.IsPrefix.eq_of_length hpre (le_antisymm hpre.length_le hge)
      rw [heq] at hlen hne
      have hdl : F.dropLast.length = F.length - 1 := by simp [List.length_dropLast]
      have hF : F = [] := List.eq_nil_of_length_eq_zero (by omega)
      rw [hF] at hne
      exact hne rfl

/-- Witness for claim C4 at a concrete sibling-directory input. -/
theorem c4_filter_exact_witness :
    ((⟨["tests", ".pr_agent.toml"], 1⟩ : ConfigFile) ∈
        [(⟨["tests", ".pr_agent.toml"], 1⟩ : ConfigFile)]
      ∧ (⟨["tests", ".pr_agent.toml"], 1⟩ : ConfigFile).path.dropLast.length
          = (["src", "main.py"] : List String).dropLast.length
      ∧ (⟨["tests", ".pr_agent.toml"], 1⟩ : ConfigFile).path.dropLast
          ≠ (["src", "main.py"] : List String).dropLast)
    ∧ (⟨["tests", ".pr_agent.toml"], 1⟩ : ConfigFile) ∉
        filter_applicable_configs ["src", "main.py"] [⟨["tests", ".pr_agent.toml"], 1⟩] :=
  ⟨⟨by decide, by decide, by decide⟩,
   (c4_filter_exact ["src", "main.py"] [⟨["tests", ".pr_agent.toml"], 1⟩]).2
     ⟨["tests", ".pr_agent.toml"], 1⟩ (by decide) (by decide) (by decide)⟩

/-- Flattening ignores every `_merge_strategy` key: erasing the
directive from the document (at every nesting level) leaves the
flattened leaf paths unchanged. -/
theorem flatten_stripDirectives :
    ∀ (t : TomlTable) (pk : String), flatten_dict (stripDirectives t) pk = flatten_dict t pk
  | .nil, _ => rfl
  | .cons k v rest, pk => by
    by_cases hk : k = "_merge_strategy"
    · subst hk
      cases v <;>
        (simp only [stripDirectives, flatten_dict, reduceIte]
         exact flatten_stripDirectives rest pk)
    · cases v with
      | table t' =>
        simp only [stripDirectives, flatten_dict, if_neg hk]
        rw [flatten_stripDirectives t', flatten_stripDirectives rest pk]
      | str s =>
        simp only [stripDirectives, flatten_dict, if_neg hk]
        rw [flatten_stripDirectives rest pk]
      | int n =>
        simp only [stripDirectives, flatten_dict, if_neg hk]
        rw [flatten_stripDirectives rest pk]
      | bool b =>
        simp only [stripDirectives, flatten_dict, if_neg hk]
        rw [flatten_stripDirectives rest pk]
      | list l =>
        simp only [stripDirectives, flatten_dict, if_neg hk]
        rw [flatten_stripDirectives rest pk]

/-- Claim C5 (amended): the reserved `_merge_strategy` key never
contributes to the dot-separated leaf paths produced by flattening for
override validation — flattening a document equals flattening the
document with every `_merge_strategy` key erased.  (It does, however,
appear in merged output when a section carrying it is copied, per the
counterexample.) -/
theorem c5_flatten_skips_directive (t : TomlTable) (pk : String) :
    flatten_dict (stripDirectives t) pk = flatten_dict t pk :=
  flatten_stripDirectives t pk

/-- Under an all-lowercase table, exact lookup of a part agrees with the
case-insensitive lookup, and the found value again has all-lowercase
nested tables. -/
theorem lower_tableLookup :
    ∀ (t : TomlTable), lowerTable t = true → ∀ (p : String),
      tableLookup t p = ciTableLookup t p
      ∧ (∀ v, tableLookup t p = some v → lowerValTables v = true)
  | .nil, _, p => ⟨rfl, by intro v hv; cases hv⟩
  | .cons k v rest, h, p => by
    rw [lowerTable, Bool.and_eq_true, Bool.and_eq_true] at h
    obtain ⟨⟨h1, h2⟩, h3⟩ := h
    have hk : strLower k = k := of_decide_eq_true h1
    constructor
    · rw [tableLookup, ciTableLookup, hk]
      by_cases hp : k = p
      · rw [if_pos hp, if_pos hp]
      · rw [if_neg hp, if_neg hp]
        exact (lower_tableLookup rest h3 p).1
    · intro v' hv'
      rw [tableLookup] at hv'
      by_cases hp : k = p
      · rw [if_pos hp] at hv'
        obtain rfl := Option.some.inj hv'
        exact h2
      · rw [if_neg hp] at hv'
        exact (lower_tableLookup rest h3 p).2 v' hv'

/-- Under all-lowercase nested tables, the exact dotted-path walk agrees
with the case-insensitive one. -/
theorem lower_lookupParts :
    ∀ (parts : List String) (v : TomlVal), lowerValTables v = true →
      lookupParts v parts = ciLookupParts v parts
  | [], v, _ => by cases v <;> rfl
  | p :: ps, .str s, _ => rfl
  | p :: ps, .int n, _ => rfl
  | p :: ps, .bool b, _ => rfl
  | p :: ps, .list l, _ => rfl
  | p :: ps, .table t, hv => by
    rw [lowerValTables] at hv
    rw [lookupParts, ciLookupParts, ← (lower_tableLookup t hv p).1]
    cases hfind : tableLookup t p with
    | none => rfl
    | some v' => exact lower_lookupParts ps v' ((lower_tableLookup t hv p).2 v' hfind)

/-- Claim C6 (amended): when every key of the file's resolved config
(nested tables included) is lowercase, `get_effective_setting` performs
exactly the case-insensitive dot-split lookup the spec describes, with
the claimed precedence: the path-scoped value when present, else the
global store's value for the lowercased dotted path, else the default
(`effective_setting_spec` is that three-tier spec reading). -/
theorem c6_effective_setting_lowercase (g : String → Option TomlVal) (en : Bool) (fs : FS)
    (contents : List String → Option TomlTable) (maxDepth : Nat) (F : List String)
    (S : String) (dflt : TomlVal)
    (h : lowerTable (get_config_for_file en fs contents maxDepth F none).config = true) :
    get_effective_setting g en fs contents maxDepth F S dflt
      = effective_setting_spec g en fs contents maxDepth F S dflt := by
  have hv : lowerValTables (.table (get_config_for_file en fs contents maxDepth F none).config)
      = true := by
    rw [lowerValTables]
    exact h
  have hl := lower_lookupParts (splitDots (strLower S))
    (.table (get_config_for_file en fs contents maxDepth F none).config) hv
  simp only [get_effective_setting, effective_setting_spec, hl]

/-- Witness for claim C6 at a concrete lowercase-keyed repository. -/
theorem c6_effective_setting_lowercase_witness :
    lowerTable (get_config_for_file true c6fs c6lcontents 5 ["f.py"] none).config = true
    ∧ get_effective_setting gNone true c6fs c6lcontents 5 ["f.py"]
        "PR_Reviewer.Num_Max_Findings" (.int 10)
      = effective_setting_spec gNone true c6fs c6lcontents 5 ["f.py"]
          "PR_Reviewer.Num_Max_Findings" (.int 10) :=
  ⟨by decide,
   c6_effective_setting_lowercase gNone true c6fs c6lcontents 5 ["f.py"]
     "PR_Reviewer.Num_Max_Findings" (.int 10) (by decide)⟩

/-- The discovery result never contains duplicates. -/
theorem nodup_discover {fs : FS} {maxDepth : Nat} {changed : List (List String)} :
    (discover_configs fs maxDepth changed).Nodup := by
  unfold discover_configs
  exact (perm_sortByDepth _).nodup_iff.mpr (nodup_dedupList _)

/-- The discovery result is sorted non-decreasing by depth. -/
theorem sorted_discover {fs : FS} {maxDepth : Nat} {changed : List (List String)} :
    (discover_configs fs maxDepth changed).Sorted (fun a b => a.depth ≤ b.depth) := by
  unfold discover_configs
  exact sorted_sortByDepth _

/-- Characterization of the applicable configs for a file `p` in a batch
`Q` containing it, provided `p`'s walk start directory is within the
depth budget and no config file name exists directly under `p` itself
when `p` is a file: a config is kept exactly when its directory is a
prefix of `p` and probing that directory finds it. -/
theorem mem_filter_discover {fs : FS} {maxDepth : Nat} {Q : List (List String)}
    {p : List String} {c : ConfigFile} (hpQ : p ∈ Q)
    (h1 : (if isFile fs p then p.dropLast else p).length ≤ maxDepth)
    (h2 : isFile fs p = true → ∀ n ∈ configFilenames, isFile fs (p ++ [n]) = false) :
    c ∈ filter_applicable_configs p (discover_configs fs maxDepth Q) ↔
      (c.path.dropLast <+: p ∧ find_config_at_path fs c.path.dropLast = some c) := by
  constructor
  · intro h
    have hm := List.mem_filter.mp h
    exact ⟨List.isPrefixOf_iff_prefix.mp hm.2, mem_discover_found hm.1⟩
  · rintro ⟨hpre, hfound⟩
    refine List.mem_filter.mpr ⟨?_, List.isPrefixOf_iff_prefix.mpr hpre⟩
    apply mem_discover_iff.mpr
    right
    refine ⟨p, hpQ, ?_⟩
    unfold walk_up_from_file
    by_cases hfs : isFile fs p = true
    · rw [if_pos hfs] at h1 ⊢
      rcases Nat.lt_or_ge c.path.dropLast.length p.length with hlt | hge
      · have hds : c.path.dropLast <+: p.dropLast := prefix_dropLast_of_lt hpre hlt
        apply walkLoop_mem_of_found (p.dropLast.length + 1) 0
          (p.dropLast.length - c.path.dropLast.length) p.dropLast c
        · omega
        · have := hds.length_le
          omega
        · omega
        · rw [upk_of_pre hds]
          exact hfound
      · have heq : c.path.dropLast = p :=
          List.IsPrefix.eq_of_length hpre (le_antisymm hpre.length_le hge)
        rw [heq] at hfound
        rw [find_config_none (h2 hfs)] at hfound
        cases hfound
    · rw [if_neg hfs] at h1 ⊢
      apply walkLoop_mem_of_found (p.length + 1) 0
        (p.length - c.path.dropLast.length) p c
      · omega
      · have := hpre.length_le
        omega
      · omega
      · rw [upk_of_pre hpre]
        exact hfound

/-- The applicable configs for `p` are strictly sorted by depth: among
configs applicable to the same file, the depth determines the directory
(equal-length prefixes of `p` coincide) and hence the config. -/
theorem sorted_lt_filter_discover {fs : FS} {maxDepth : Nat} {Q : List (List String)}
    {p : List String} :
    (filter_applicable_configs p (discover_configs fs maxDepth Q)).Sorted
      (fun a b => a.depth < b.depth) := by
  have hs : (filter_applicable_configs p (discover_configs fs maxDepth Q)).Pairwise
      (fun a b => a.depth ≤ b.depth) :=
    List.Pairwise.filter _ sorted_discover
  have hnd : (filter_applicable_configs p (discover_configs fs maxDepth Q)).Pairwise
      (fun a b => a ≠ b) :=
    nodup_discover.filter _
  refine List.Pairwise.imp_of_mem ?_ (hs.and hnd)
  intro a b ha hb hab
  have hfa := mem_discover_found (List.mem_filter.mp ha).1
  have hfb := mem_discover_found (List.mem_filter.mp hb).1
  have hpa : a.path.dropLast <+: p := List.isPrefixOf_iff_prefix.mp (List.mem_filter.mp ha).2
  have hpb : b.path.dropLast <+: p := List.isPrefixOf_iff_prefix.mp (List.mem_filter.mp hb).2
  have hda := (find_config_shape hfa).2
  have hdb := (find_config_shape hfb).2
  rcases Nat.lt_or_ge a.depth b.depth with hlt | hge
  · exact hlt
  · exfalso
    apply hab.2
    have hdir : a.path.dropLast = b.path.dropLast := by
      rw [List.prefix_iff_eq_take.mp hpa, List.prefix_iff_eq_take.mp hpb]
      congr 1
      omega
    rw [hdir] at hfa
    exact Option.some.inj (hfa.symm.trans hfb)

/-- Batch discovery filtered to one of its files agrees with the
file's own single-file discovery, under the depth-budget and
no-config-under-file-path side conditions. -/
theorem filter_discover_localize {fs : FS} {maxDepth : Nat} {P : List (List String)}
    {p : List String} (hp : p ∈ P)
    (h1 : (if isFile fs p then p.dropLast else p).length ≤ maxDepth)
    (h2 : isFile fs p = true → ∀ n ∈ configFilenames, isFile fs (p ++ [n]) = false) :
    filter_applicable_configs p (discover_configs fs maxDepth P)
      = filter_applicable_configs p (discover_configs fs maxDepth [p]) := by
  have hiff : ∀ c, c ∈ filter_applicable_configs p (discover_configs fs maxDepth P) ↔
      c ∈ filter_applicable_configs p (discover_configs fs maxDepth [p]) := fun c =>
    (mem_filter_discover hp h1 h2).trans
      (mem_filter_discover (List.mem_singleton_self p) h1 h2).symm
  have hperm := (List.perm_ext_iff_of_nodup (nodup_discover.filter _)
    (nodup_discover.filter _)).mpr hiff
  haveI : IsAntisymm ConfigFile (fun a b => a.depth < b.depth) :=
    ⟨fun a b hab hba => absurd hab (Nat.lt_asymm hba)⟩
  exact List.eq_of_perm_of_sorted hperm sorted_lt_filter_discover sorted_lt_filter_discover

/-- Claim C7 (amended): batch resolution coincides with per-file
resolution whenever every requested file's walk start directory lies
within `max_depth` of the repository root and no supported config file
name exists directly under a requested file's own path; the modelled
caches are empty, matching the claim's cache-free scenario.  (Beyond the
depth budget the two differ, per the counterexample.) -/
theorem c7_batch_refines_per_file (en : Bool) (fs : FS)
    (contents : List String → Option TomlTable) (maxDepth : Nat) (P : List (List String))
    (h1 : ∀ p ∈ P, (if isFile fs p then p.dropLast else p).length ≤ maxDepth)
    (h2 : ∀ p ∈ P, isFile fs p = true → ∀ n ∈ configFilenames, isFile fs (p ++ [n]) = false) :
    get_config_for_files en fs contents maxDepth P
      = P.map fun p => (p, get_config_for_file en fs contents maxDepth p none) := by
  by_cases hen : en = false
  · unfold get_config_for_files
    rw [if_pos (.inl hen)]
    refine List.map_congr_left fun p _ => ?_
    unfold get_config_for_file
    rw [if_pos hen]
  · by_cases hP : P = []
    · subst hP
      unfold get_config_for_files
      rw [if_pos (.inr rfl)]
      simp
    · unfold get_config_for_files
      rw [if_neg (by tauto)]
      refine List.map_congr_left fun p hp => ?_
      unfold get_config_for_file
      rw [if_neg hen]
      rw [filter_discover_localize hp (h1 p hp) (h2 p hp)]

/-- Witness for claim C7 at a concrete two-file batch within the depth
budget. -/
theorem c7_batch_refines_per_file_witness :
    ((∀ p ∈ [["a", "b", "f.py"], ["a", "g.py"]],
        (if isFile fsC7 p then p.dropLast else p).length ≤ 5)
      ∧ (∀ p ∈ [["a", "b", "f.py"], ["a", "g.py"]],
          isFile fsC7 p = true → ∀ n ∈ configFilenames, isFile fsC7 (p ++ [n]) = false))
    ∧ get_config_for_files true fsC7 c7contents 5 [["a", "b", "f.py"], ["a", "g.py"]]
      = [["a", "b", "f.py"], ["a", "g.py"]].map
          (fun p => (p, get_config_for_file true fsC7 c7contents 5 p none)) :=
  ⟨⟨by decide, by decide⟩,
   c7_batch_refines_per_file true fsC7 c7contents 5 [["a", "b", "f.py"], ["a", "g.py"]]
     (by decide) (by decide)⟩

end PathCfg
